import Mathlib

/-!
Shallow embedding of the `ETL_cars` repository (files `etl_cars.py` and
`db_cars.py`): the transform stage (`_normalize_columns`, `transform_cars`),
the row conversion for the database (`_convert_row_for_db`) and the SQLite
store layer (`init_schema`, `upsert_cars` with `UPSERT_SQL`).

Modelling conventions:
* a spreadsheet cell is a `Cell` (missing marker, text, integer or
  floating-point number); floating-point values are modelled as exact
  rationals, with the IEEE special values `nan` and `±inf` made explicit
  in the `EFloat` type used for the derived-metric column;
* `pandas.to_numeric(errors="coerce")` is modelled per cell
  (`toNumericCell`): unparseable values become missing.  Number literals
  are modelled as decimal numerals with optional sign and fractional part;
* `.astype("Int64")` is modelled per cell (`coerceNumericCell`): a
  non-integral number makes the cast raise, which is modelled by
  `Except.error ()` (pandas raises `TypeError: cannot safely cast
  non-equivalent float64 to int64`);
* the SQLite table `fact_cars` is a list of rows; `url` is the primary
  key, `regnr` carries a unique index, the `check` constraints of the DDL
  are `rowOk`.  The `with conn` block of `upsert_cars` commits on success
  and rolls back on error, so the store component of the result is the
  original store whenever an error is raised.
-/

namespace ETLCars

/-- A raw spreadsheet cell as produced by the extractor: empty/missing,
text, integer or floating-point number (modelled exactly). -/
inductive Cell where
  | na : Cell
  | str (s : String) : Cell
  | int (n : Int) : Cell
  | real (q : ℚ) : Cell
deriving DecidableEq, Repr

/-- A raw table: the header row and the data rows (each row listing its
cells in header order), as handed to `transform_cars`. -/
structure RawTable where
  columns : List String
  rows : List (List Cell)
deriving DecidableEq, Repr

/-- Model of `_safe_get`, per row: the cell of column `src` if that column exists,
otherwise the missing marker. -/
def lookupCell (cols : List String) (row : List Cell) (src : String) : Cell :=
  match cols.findIdx? (fun c => c = src) with
  | some i => row.getD i Cell.na
  | none => Cell.na

/-- Model of `.astype("string")` on one cell: missing stays missing, any other
value becomes its text rendering. -/
def cellToStr : Cell → Option String
  | Cell.na => none
  | Cell.str s => some s
  | Cell.int n => some (toString n)
  | Cell.real q => some (toString q)

/-- Removal of leading and trailing whitespace from a character list. -/
def stripChars (l : List Char) : List Char :=
  ((l.dropWhile Char.isWhitespace).reverse.dropWhile Char.isWhitespace).reverse

/-- Model of `str.strip()`: drop leading and trailing whitespace. -/
def strip (s : String) : String :=
  ⟨stripChars s.data⟩

/-- String-column cleanup of `_normalize_columns`:
`astype("string").str.strip().replace({"": pd.NA})`. -/
def cleanString (c : Cell) : Option String :=
  match cellToStr c with
  | none => none
  | some s => if strip s = "" then none else some (strip s)

/-- Numeral value of a list of decimal digit characters (as a rational). -/
def digitsVal (l : List Char) : ℚ :=
  l.foldl (fun a c => a * 10 + ((c.toNat - 48 : ℕ) : ℚ)) 0

/-- Decimal numeral parser modelling the number formats accepted by
`pandas.to_numeric` on strings: optional sign, integer digits, optional
fractional digits; at least one digit overall. -/
def parseRat (s : String) : Option ℚ :=
  let chars := s.data
  let signRest : ℚ × List Char :=
    match chars with
    | '-' :: r => (-1, r)
    | '+' :: r => (1, r)
    | r => (1, r)
  let ip := signRest.2.takeWhile Char.isDigit
  let rest := signRest.2.dropWhile Char.isDigit
  match rest with
  | [] => if ip.isEmpty then none else some (signRest.1 * digitsVal ip)
  | '.' :: fr =>
      if fr.all Char.isDigit ∧ ¬(ip.isEmpty ∧ fr.isEmpty) then
        some (signRest.1 * (digitsVal ip + digitsVal fr / (10 : ℚ) ^ fr.length))
      else none
  | _ => none

/-- Model of `pd.to_numeric(errors="coerce")` on one cell: numbers pass
through, numeric text is parsed, anything else becomes missing. -/
def toNumericCell : Cell → Option ℚ
  | Cell.na => none
  | Cell.int n => some (n : ℚ)
  | Cell.real q => some q
  | Cell.str s => parseRat (strip s)

/-- Model of `pd.to_numeric(errors="coerce")` followed by `.astype("Int64")` on one
cell.  A missing or unparseable value becomes missing (`.ok none`); an
integral number becomes that integer; a non-integral number makes the
`astype("Int64")` cast raise, modelled by `.error ()`. -/
def coerceNumericCell (c : Cell) : Except Unit (Option Int) :=
  match toNumericCell c with
  | none => Except.ok none
  | some q => if q.den = 1 then Except.ok (some q.num) else Except.error ()

/-- A normalized row before the derived metric is added: the eight mapped
columns of `COLUMN_MAP` after string cleanup and numeric coercion. -/
structure NormRowBase where
  url : Option String
  regnr : Option String
  model_year : Option Int
  price_sek : Option Int
  odometer_km : Option Int
  fuel : Option String
  body_type : Option String
  horsepower : Option Int
deriving DecidableEq, Repr

/-- Model of `_normalize_columns`, per row: map the Swedish headers to canonical
names (missing columns yield all-missing values), clean the string
columns, coerce the numeric columns.  The error is the `TypeError`
raised by `.astype("Int64")` on a non-integral numeric value. -/
def normalizeRow (cols : List String) (row : List Cell) : Except Unit NormRowBase := do
  let my ← coerceNumericCell (lookupCell cols row "Modellår")
  let ps ← coerceNumericCell (lookupCell cols row "Pris (kr)")
  let od ← coerceNumericCell (lookupCell cols row "Mätarställning (km)")
  let hp ← coerceNumericCell (lookupCell cols row "Hästkrafter")
  pure
    { url := cleanString (lookupCell cols row "Url")
      regnr := cleanString (lookupCell cols row "Registreringsnummer")
      model_year := my
      price_sek := ps
      odometer_km := od
      fuel := cleanString (lookupCell cols row "Bränsle")
      body_type := cleanString (lookupCell cols row "Biltyp")
      horsepower := hp }

/-- Model of `_normalize_columns` over the whole table. -/
def normalizeRows (t : RawTable) : Except Unit (List NormRowBase) :=
  t.rows.mapM (normalizeRow t.columns)

/-- An IEEE-style floating-point value, modelled exactly: not-a-number,
a signed infinity, or a finite value (an exact rational). -/
inductive EFloat where
  | nan : EFloat
  | inf (pos : Bool) : EFloat
  | val (q : ℚ) : EFloat
deriving DecidableEq, Repr

/-- Model of `.astype("float")` on a nullable-integer value: `pd.NA` becomes `nan`. -/
def toEFloat : Option Int → EFloat
  | none => EFloat.nan
  | some n => EFloat.val (n : ℚ)

/-- Floating-point division with `np.errstate` suppressing the
divide-by-zero and invalid warnings: no exception is ever raised. -/
def efDiv : EFloat → EFloat → EFloat
  | EFloat.nan, _ => EFloat.nan
  | _, EFloat.nan => EFloat.nan
  | EFloat.val a, EFloat.val b =>
      if b = 0 then (if a = 0 then EFloat.nan else EFloat.inf (decide (0 < a)))
      else EFloat.val (a / b)
  | EFloat.inf p, EFloat.val b => if b < 0 then EFloat.inf (!p) else EFloat.inf p
  | EFloat.val _, EFloat.inf _ => EFloat.val 0
  | EFloat.inf _, EFloat.inf _ => EFloat.nan

/-- Floating-point multiplication. -/
def efMul : EFloat → EFloat → EFloat
  | EFloat.nan, _ => EFloat.nan
  | _, EFloat.nan => EFloat.nan
  | EFloat.val a, EFloat.val b => EFloat.val (a * b)
  | EFloat.inf p, EFloat.val b => if b = 0 then EFloat.nan else EFloat.inf (p == decide (0 < b))
  | EFloat.val a, EFloat.inf p => if a = 0 then EFloat.nan else EFloat.inf (p == decide (0 < a))
  | EFloat.inf p, EFloat.inf q => EFloat.inf (p == q)

/-- Model of `isna` on a float value: true exactly for `nan`. -/
def efIsNan : EFloat → Bool
  | EFloat.nan => true
  | _ => false

/-- The float comparison `odo == 0` (false on `nan` and on infinities). -/
def efEqZero : EFloat → Bool
  | EFloat.val q => decide (q = 0)
  | _ => false

/-- Round half to even, the rounding used by `numpy`/`pandas.round`. -/
def roundEven (q : ℚ) : Int :=
  let f : Int := Int.floor q
  let frac : ℚ := q - (f : ℚ)
  if frac < 1 / 2 then f
  else if frac > 1 / 2 then f + 1
  else if f % 2 = 0 then f else f + 1

/-- Model of `round(x, 2)`: round to two decimal places (half to even). -/
def round2 (q : ℚ) : ℚ := ((roundEven (q * 100) : Int) : ℚ) / 100

/-- Model of `.round(2)` on one float column entry. -/
def efRound2 : EFloat → EFloat
  | EFloat.nan => EFloat.nan
  | EFloat.inf p => EFloat.inf p
  | EFloat.val q => EFloat.val (round2 q)

/-- The derived-metric computation of `transform_cars` on one row:
`p_per_1000 = (price/odo) * 1000.0`, masked where price or odometer is
missing or the odometer is zero, then rounded to two decimals. -/
def metric (ps od : Option Int) : EFloat :=
  let price := toEFloat ps
  let odo := toEFloat od
  let raw := efMul (efDiv price odo) (EFloat.val 1000)
  let invalid := efIsNan price || efIsNan odo || efEqZero odo
  efRound2 (if invalid then EFloat.nan else raw)

/-- A fully transformed row: the normalized columns plus the derived
`price_per_1000km` float column (where `nan` encodes a missing value). -/
structure NormRow where
  url : Option String
  regnr : Option String
  model_year : Option Int
  price_sek : Option Int
  odometer_km : Option Int
  fuel : Option String
  body_type : Option String
  horsepower : Option Int
  price_per_1000km : EFloat
deriving DecidableEq, Repr

/-- Attach the derived metric to a normalized row. -/
def addMetric (b : NormRowBase) : NormRow :=
  { url := b.url
    regnr := b.regnr
    model_year := b.model_year
    price_sek := b.price_sek
    odometer_km := b.odometer_km
    fuel := b.fuel
    body_type := b.body_type
    horsepower := b.horsepower
    price_per_1000km := metric b.price_sek b.odometer_km }

/-- Model of `drop_duplicates(subset=["url"], keep="last")`: a row survives iff no
later row carries the same `url`. -/
def dedupLast : List NormRow → List NormRow
  | [] => []
  | r :: rest =>
      if rest.any (fun s => s.url == r.url) then dedupLast rest
      else r :: dedupLast rest

/-- The first part of `transform_cars`: normalization plus the derived
metric, before the URL filter and duplicate removal (one entry per input
row, in input order). -/
def transformAllRows (t : RawTable) : Except Unit (List NormRow) :=
  (normalizeRows t).map (List.map addMetric)

/-- Model of `transform_cars`: normalize, compute the metric, drop rows without a
URL, keep the last row per URL, re-index from zero (positions in the
resulting list). -/
def transform_cars (t : RawTable) : Except Unit (List NormRow) :=
  (transformAllRows t).map
    (fun mid => dedupLast (mid.filter (fun r => r.url.isSome)))

/-! ## The store layer (`db_cars.py`) -/

/-- A record as bound to the ten parameters of `UPSERT_SQL`: the nine
`NormalizedRecord` fields plus `load_ts`.  `url` is the primary key and
`load_ts` is `not null`, so both are non-optional here. -/
structure DbRow where
  url : String
  regnr : Option String
  model_year : Option Int
  price_sek : Option Int
  odometer_km : Option Int
  fuel : Option String
  body_type : Option String
  horsepower : Option Int
  price_per_1000km : Option ℚ
  load_ts : String
deriving DecidableEq, Repr

/-- The `fact_cars` table: one row per stored record. -/
abbrev Store := List DbRow

/-- An error raised by the store while executing `UPSERT_SQL`. -/
inductive DbErr where
  | checkViolation : DbErr
  | uniqueViolation : DbErr
deriving DecidableEq, Repr

/-- The `check` constraints of the `fact_cars` DDL: each numeric field is
null or within its admissible range. -/
def rowOk (r : DbRow) : Bool :=
  r.model_year.all (fun y => 1900 ≤ y) &&
  r.price_sek.all (fun p => 0 ≤ p) &&
  r.odometer_km.all (fun k => 0 ≤ k) &&
  r.horsepower.all (fun h => 0 ≤ h) &&
  r.price_per_1000km.all (fun q => 0 ≤ q)

/-- The unique index `ux_fact_cars_regnr`: inserting or updating a row
whose non-null `regnr` equals the `regnr` of a different stored row (a row
with another `url`) violates the index. -/
def regnrConflict (db : Store) (r : DbRow) : Bool :=
  db.any (fun s => s.url != r.url && r.regnr.isSome && s.regnr == r.regnr)

/-- One execution of `UPSERT_SQL`: reject the row if a `check` constraint
or the `regnr` unique index is violated; otherwise, on a `url` conflict
update every non-key field with the `excluded` values (which replaces the
whole stored row, the key being equal), else insert the row. -/
def upsertOne (db : Store) (r : DbRow) : Except DbErr Store :=
  if rowOk r then
    if regnrConflict db r then Except.error DbErr.uniqueViolation
    else if db.any (fun s => s.url == r.url) then
      Except.ok (db.map (fun s => if s.url == r.url then r else s))
    else Except.ok (db ++ [r])
  else Except.error DbErr.checkViolation

/-- Model of `conn.executemany(UPSERT_SQL, rows_list)`: execute the statement once
per row, stopping at the first error. -/
def upsertAll (db : Store) : List DbRow → Except DbErr Store
  | [] => Except.ok db
  | r :: rest =>
      match upsertOne db r with
      | Except.error e => Except.error e
      | Except.ok db1 => upsertAll db1 rest

/-- Model of `upsert_cars`: empty input returns 0 without touching the store;
otherwise the batch runs inside `with conn`, which commits on success and
rolls back on error (the store is left unchanged and the error is
re-raised).  On success the count of submitted rows is returned. -/
def upsert_cars (db : Store) (rows : List DbRow) : Store × Except DbErr Nat :=
  if rows.isEmpty then (db, Except.ok 0)
  else
    match upsertAll db rows with
    | Except.ok db1 => (db1, Except.ok rows.length)
    | Except.error e => (db, Except.error e)

/-! ## Row conversion for the database (`_convert_row_for_db`) -/

/-- A Python value as seen when iterating the transformed data frame:
the three missing-value encodings (`None`, the float `nan`, `pd.NA`) or a
present text, integer or float value. -/
inductive PyVal where
  | none : PyVal
  | nan : PyVal
  | pdNA : PyVal
  | str (s : String) : PyVal
  | int (n : Int) : PyVal
  | real (q : ℚ) : PyVal
deriving DecidableEq, Repr

/-- One tuple yielded by `df.itertuples(index=False, name=None)`: the nine
transformed columns in table order. -/
structure PdRow where
  url : PyVal
  regnr : PyVal
  model_year : PyVal
  price_sek : PyVal
  odometer_km : PyVal
  fuel : PyVal
  body_type : PyVal
  horsepower : PyVal
  price_per_1000km : PyVal
deriving DecidableEq, Repr

/-- The missing test of `_none`: `v is None`, `isinstance(v, float) and
np.isnan(v)`, or `pd.isna(v)` — true exactly on the three missing-value
encodings. -/
def pyMissing : PyVal → Bool
  | PyVal.none => true
  | PyVal.nan => true
  | PyVal.pdNA => true
  | _ => false

/-- Python `str()` (total). -/
def pyStr : PyVal → String
  | PyVal.str s => s
  | PyVal.int n => toString n
  | PyVal.real q => toString q
  | PyVal.none => "None"
  | PyVal.nan => "nan"
  | PyVal.pdNA => "<NA>"

/-- Truncation toward zero, as Python `int()` on a float. -/
def ratTrunc (q : ℚ) : Int :=
  if 0 ≤ q then Int.floor q else Int.ceil q

/-- The `str` cast of `_none` (never fails). -/
def castStr (v : PyVal) : Option PyVal :=
  some (PyVal.str (pyStr v))

/-- The `int` cast of `_none`: integers pass through, floats truncate,
integer-literal text parses; anything else raises (`none`). -/
def castInt (v : PyVal) : Option PyVal :=
  match v with
  | PyVal.int n => some (PyVal.int n)
  | PyVal.real q => some (PyVal.int (ratTrunc q))
  | PyVal.str s => ((strip s).toInt?).map PyVal.int
  | _ => none

/-- The `float` cast of `_none`: numbers pass through, numeric text
parses; anything else raises (`none`). -/
def castFloat (v : PyVal) : Option PyVal :=
  match v with
  | PyVal.int n => some (PyVal.real (n : ℚ))
  | PyVal.real q => some (PyVal.real q)
  | PyVal.str s => (parseRat (strip s)).map PyVal.real
  | _ => none

/-- Model of `_none(v, cast)`: a semantically missing value becomes the canonical
`none` before any cast is attempted; otherwise the cast is applied, a
cast failure raising (`.error ()`). -/
def convField (cast : PyVal → Option PyVal) (v : PyVal) : Except Unit (Option PyVal) :=
  if pyMissing v then Except.ok none
  else
    match cast v with
    | some w => Except.ok (some w)
    | none => Except.error ()

/-- A converted tuple as appended to `out_rows`: the nine converted
fields plus the shared load timestamp. -/
structure ConvRow where
  url : Option PyVal
  regnr : Option PyVal
  model_year : Option PyVal
  price_sek : Option PyVal
  odometer_km : Option PyVal
  fuel : Option PyVal
  body_type : Option PyVal
  horsepower : Option PyVal
  price_per_1000km : Option PyVal
  load_ts : String
deriving DecidableEq, Repr

/-- Conversion of one tuple inside the loop of `_convert_row_for_db`,
with the casts `str, str, int, int, int, str, str, int, float` of the
source and `now` the single clock reading taken before the loop. -/
def convertRow (now : String) (r : PdRow) : Except Unit ConvRow :=
  match convField castStr r.url, convField castStr r.regnr,
        convField castInt r.model_year, convField castInt r.price_sek,
        convField castInt r.odometer_km, convField castStr r.fuel,
        convField castStr r.body_type, convField castInt r.horsepower,
        convField castFloat r.price_per_1000km with
  | Except.ok u, Except.ok g, Except.ok my, Except.ok ps, Except.ok od,
    Except.ok fu, Except.ok bt, Except.ok hp, Except.ok pp =>
      Except.ok ⟨u, g, my, ps, od, fu, bt, hp, pp, now⟩
  | _, _, _, _, _, _, _, _, _ => Except.error ()

/-- Model of `_convert_row_for_db`: `now = datetime.now(timezone.utc).isoformat()`
is computed once, before the loop, and every produced tuple carries it;
the rows are converted in order. -/
def convert_rows_for_db (rows : List PdRow) (now : String) : Except Unit (List ConvRow) :=
  rows.mapM (convertRow now)

/-! ## Concrete sample data (used by the witness theorems) -/

/-- The record of the repository's own test (`test_cars.py`). -/
def sampleDbRow : DbRow :=
  ⟨"http://test.se/1", some "ABC123", some 2020, some 200000, some 5000,
   some "Bensin", some "Kombi", some 150, some 40000, "2025-01-01T00:00:00+00:00"⟩

/-- A stored row with every nullable field populated, to be overwritten. -/
def storedFullRow : DbRow :=
  ⟨"http://test.se/1", some "OLD111", some 2019, some 150000, some 4000,
   some "Diesel", some "Sedan", some 120, some 37500, "2024-01-01T00:00:00+00:00"⟩

/-- An incoming row for the same `url` with every nullable field null. -/
def incomingNullRow : DbRow :=
  ⟨"http://test.se/1", none, none, none, none, none, none, none, none,
   "2025-01-01T00:00:00+00:00"⟩

/-- A table with a blank-URL row and two rows sharing one URL. -/
def dupUrlTable : RawTable :=
  ⟨["Url", "Registreringsnummer"],
   [[Cell.str "http://x/1", Cell.str "AAA111"],
    [Cell.str "", Cell.str "BBB222"],
    [Cell.str "http://x/1", Cell.str "CCC333"]]⟩

/-- The normalized form of the first row of `dupUrlTable`. -/
def dupRowA : NormRow :=
  ⟨some "http://x/1", some "AAA111", none, none, none, none, none, none, EFloat.nan⟩

/-- The normalized form of the second (blank-URL) row of `dupUrlTable`. -/
def dupRowB : NormRow :=
  ⟨none, some "BBB222", none, none, none, none, none, none, EFloat.nan⟩

/-- The normalized form of the last row of `dupUrlTable`. -/
def dupRowC : NormRow :=
  ⟨some "http://x/1", some "CCC333", none, none, none, none, none, none, EFloat.nan⟩

/-- A table whose `Modellår` cell holds the non-integral numeral `1.5`. -/
def fracYearTable : RawTable :=
  ⟨["Url", "Modellår"], [[Cell.str "http://x/1", Cell.str "1.5"]]⟩

/-- One transformed tuple exercising all three missing-value encodings. -/
def samplePdRow : PdRow :=
  ⟨PyVal.str "http://test.se/1", PyVal.pdNA, PyVal.int 2020, PyVal.nan, PyVal.none,
   PyVal.str "Bensin", PyVal.pdNA, PyVal.int 150, PyVal.real 40000⟩

/-- The conversion of `samplePdRow`. -/
def sampleConvRow : ConvRow :=
  ⟨some (PyVal.str "http://test.se/1"), none, some (PyVal.int 2020), none, none,
   some (PyVal.str "Bensin"), none, some (PyVal.int 150), some (PyVal.real 40000),
   "2025-01-01T00:00:00+00:00"⟩

/-- A fully populated normalized row (the spec's first test scenario). -/
def sampleBaseRow : NormRowBase :=
  ⟨some "http://test.se/1", some "ABC123", some 2020, some 200000, some 5000,
   some "Bensin", some "Kombi", some 150⟩

/-! ## General helper lemmas -/

/-- Inversion of a successful `Except` bind. -/
theorem exceptBind_ok_inv {ε α β : Type} {x : Except ε α} {f : α → Except ε β} {b : β}
    (h : (x >>= f) = Except.ok b) : ∃ a, x = Except.ok a ∧ f a = Except.ok b := by
  cases x with
  | ok a => exact ⟨a, rfl, h⟩
  | error e => exact Except.noConfusion h

/-! ## C1: the derived metric -/

/-- C1.  For every normalized row, `price_per_1000km` is the missing
marker `nan` whenever the price or the odometer is missing or the
odometer is zero (the computation is total, so no error is raised), and
otherwise equals `round(price / odometer * 1000.0, 2)`. -/
theorem price_per_1000km_spec (b : NormRowBase) :
    ((b.price_sek = none ∨ b.odometer_km = none ∨ b.odometer_km = some 0) →
      (addMetric b).price_per_1000km = EFloat.nan) ∧
    (∀ p o : Int, b.price_sek = some p → b.odometer_km = some o → o ≠ 0 →
      (addMetric b).price_per_1000km =
        EFloat.val (round2 ((p : ℚ) / (o : ℚ) * 1000))) := by
  constructor
  · intro h
    show metric b.price_sek b.odometer_km = EFloat.nan
    rcases h with h | h | h <;> rw [h] <;> unfold metric
    · simp [toEFloat, efIsNan, efRound2]
    · simp [toEFloat, efIsNan, efRound2]
    · simp [toEFloat, efIsNan, efEqZero, efRound2]
  · intro p o hp ho hone
    show metric b.price_sek b.odometer_km = _
    rw [hp, ho]
    unfold metric
    have hoq : ((o : Int) : ℚ) ≠ 0 := Int.cast_ne_zero.mpr hone
    simp [toEFloat, efIsNan, efEqZero, efDiv, efMul, efRound2, hoq]

/-- Witness for C1 at the spec's test scenario: price 200000, odometer
5000 gives 40000.0; price 100000 with odometer 0 gives the missing
marker. -/
theorem price_per_1000km_spec_wit :
    (addMetric sampleBaseRow).price_per_1000km =
      EFloat.val (round2 ((200000 : ℚ) / (5000 : ℚ) * 1000)) ∧
    (addMetric { sampleBaseRow with price_sek := some 100000, odometer_km := some 0 }).price_per_1000km
      = EFloat.nan :=
  ⟨(price_per_1000km_spec sampleBaseRow).2 200000 5000 rfl rfl (by decide),
   (price_per_1000km_spec { sampleBaseRow with price_sek := some 100000, odometer_km := some 0 }).1
     (Or.inr (Or.inr rfl))⟩

/-! ## C7: numeric coercion -/

/-- C7, counterexample.  The numeral `1.5` cannot be parsed as an
integer, yet coercion does not degrade it to missing: the
`astype("Int64")` cast raises and `transform_cars` propagates the
error instead of producing a row with a missing `model_year`. -/
theorem numeric_coercion_cex :
    coerceNumericCell (Cell.str "1.5") = Except.error () ∧
    transform_cars fracYearTable = Except.error () := by
  have hq : toNumericCell (Cell.str "1.5") =
      some (1 * (digitsVal ['1'] + digitsVal ['5'] / (10 : ℚ) ^ (1 : ℕ))) := rfl
  have hval : (1 * (digitsVal ['1'] + digitsVal ['5'] / (10 : ℚ) ^ (1 : ℕ))) = 3 / 2 := by
    norm_num [digitsVal, show ('1'.toNat - 48 : ℕ) = 1 from rfl,
      show ('5'.toNat - 48 : ℕ) = 5 from rfl]
  have hden : ((3 : ℚ) / 2).den = 2 := by norm_num [Rat.den]
  have hcoerce : coerceNumericCell (Cell.str "1.5") = Except.error () := by
    unfold coerceNumericCell
    rw [hq, hval]
    simp [hden]
  refine ⟨hcoerce, ?_⟩
  have hrow : normalizeRow ["Url", "Modellår"]
      [Cell.str "http://x/1", Cell.str "1.5"] = Except.error () := by
    unfold normalizeRow
    have hl : lookupCell ["Url", "Modellår"]
        [Cell.str "http://x/1", Cell.str "1.5"] "Modellår" = Cell.str "1.5" := rfl
    rw [hl, hcoerce]
    rfl
  have hrows : normalizeRows fracYearTable = Except.error () := by
    show ([[Cell.str "http://x/1", Cell.str "1.5"]].mapM
      (normalizeRow ["Url", "Modellår"])) = Except.error ()
    rw [List.mapM_cons, hrow]
    rfl
  show transform_cars fracYearTable = Except.error ()
  unfold transform_cars transformAllRows
  rw [hrows]
  rfl

/-- C7, amended.  Coercion parses each cell as a number: a value that
cannot be parsed as a number at all becomes missing without any error,
an integral number becomes that integer, but a value parsing to a
non-integral number makes the integer cast raise. -/
theorem numeric_coercion_amended (c : Cell) :
    (toNumericCell c = none → coerceNumericCell c = Except.ok none) ∧
    (∀ q : ℚ, toNumericCell c = some q → q.den = 1 →
      coerceNumericCell c = Except.ok (some q.num)) ∧
    (∀ q : ℚ, toNumericCell c = some q → q.den ≠ 1 →
      coerceNumericCell c = Except.error ()) := by
  refine ⟨?_, ?_, ?_⟩
  · intro h; unfold coerceNumericCell; rw [h]
  · intro q hq hd; unfold coerceNumericCell; rw [hq]; exact if_pos hd
  · intro q hq hd; unfold coerceNumericCell; rw [hq]; exact if_neg hd

/-- Witness for the amended C7: unparseable text degrades to missing,
a non-integral numeral raises. -/
theorem numeric_coercion_amended_wit :
    coerceNumericCell (Cell.str "abc") = Except.ok none ∧
    coerceNumericCell (Cell.real (mkRat 3 2)) = Except.error () :=
  ⟨(numeric_coercion_amended (Cell.str "abc")).1 rfl,
   (numeric_coercion_amended (Cell.real (mkRat 3 2))).2.2 (mkRat 3 2) rfl (by decide)⟩

/-! ## C9 and C10: row conversion for the store -/

/-- C9.  Every semantically missing field value — the null object `None`,
the floating-point `nan` marker, or the framework marker `pd.NA` — is
mapped by the row conversion to the single canonical no-value
representation, before any cast is attempted. -/
theorem convert_missing_collapse (cast : PyVal → Option PyVal) (v : PyVal)
    (h : v = PyVal.none ∨ v = PyVal.nan ∨ v = PyVal.pdNA) :
    convField cast v = Except.ok none := by
  rcases h with h | h | h <;> rw [h] <;> rfl

/-- Witness for C9: all three encodings collapse, under each cast. -/
theorem convert_missing_collapse_wit :
    convField castStr PyVal.none = Except.ok none ∧
    convField castInt PyVal.nan = Except.ok none ∧
    convField castFloat PyVal.pdNA = Except.ok none :=
  ⟨convert_missing_collapse castStr PyVal.none (Or.inl rfl),
   convert_missing_collapse castInt PyVal.nan (Or.inr (Or.inl rfl)),
   convert_missing_collapse castFloat PyVal.pdNA (Or.inr (Or.inr rfl))⟩

/-- A successfully converted tuple carries the clock reading taken before
the loop. -/
theorem convertRow_ok_load_ts {now : String} {r : PdRow} {c : ConvRow}
    (h : convertRow now r = Except.ok c) : c.load_ts = now := by
  unfold convertRow at h
  split at h
  · injection h with h; rw [← h]
  · exact Except.noConfusion h

/-- C10.  Within one load call every converted row receives the identical
`load_ts` value: the timestamp is computed once, before the loop, and
shared by the whole batch. -/
theorem convert_load_ts_shared (rows : List PdRow) (now : String) (out : List ConvRow)
    (h : convert_rows_for_db rows now = Except.ok out) :
    ∀ c ∈ out, c.load_ts = now := by
  induction rows generalizing out with
  | nil =>
    unfold convert_rows_for_db at h
    rw [List.mapM_nil] at h
    injection h with h
    rw [← h]
    intro c hc
    exact absurd hc (List.not_mem_nil c)
  | cons r rest ih =>
    unfold convert_rows_for_db at h ih
    rw [List.mapM_cons] at h
    obtain ⟨c0, hc0, h⟩ := exceptBind_ok_inv h
    obtain ⟨cs, hcs, h⟩ := exceptBind_ok_inv h
    injection h with h
    intro c hc
    rw [← h] at hc
    rcases List.mem_cons.mp hc with rfl | hmem
    · exact convertRow_ok_load_ts hc0
    · exact ih cs hcs c hmem

/-- Witness for C10 on a one-row batch mixing all missing encodings. -/
theorem convert_load_ts_shared_wit :
    sampleConvRow.load_ts = "2025-01-01T00:00:00+00:00" :=
  convert_load_ts_shared [samplePdRow] "2025-01-01T00:00:00+00:00" [sampleConvRow]
    rfl sampleConvRow (by simp)

/-! ## C5 and C8: the upsert contract -/

/-- C5.  Every batch is applied as one atomic unit: either some row
violates a store constraint, the transaction rolls back leaving the
store exactly as before and the error is surfaced to the caller, or all
rows are applied and the call reports success. -/
theorem upsert_batch_atomic (db : Store) (rows : List DbRow) :
    (∃ e, upsertAll db rows = Except.error e ∧
        upsert_cars db rows = (db, Except.error e)) ∨
    (∃ db1, upsertAll db rows = Except.ok db1 ∧
        upsert_cars db rows = (db1, Except.ok rows.length)) := by
  cases rows with
  | nil => exact Or.inr ⟨db, rfl, rfl⟩
  | cons r rest =>
    cases h : upsertAll db (r :: rest) with
    | ok db1 =>
      refine Or.inr ⟨db1, rfl, ?_⟩
      unfold upsert_cars
      rw [if_neg (by simp), h]
    | error e =>
      refine Or.inl ⟨e, rfl, ?_⟩
      unfold upsert_cars
      rw [if_neg (by simp), h]

/-- C8.  The upsert returns the count of rows submitted to it whenever it
returns at all, and empty input returns 0 leaving the store untouched
with no error. -/
theorem upsert_count_spec :
    (∀ db : Store, upsert_cars db [] = (db, Except.ok 0)) ∧
    (∀ (db : Store) (rows : List DbRow) (db1 : Store) (n : Nat),
      upsert_cars db rows = (db1, Except.ok n) → n = rows.length) := by
  refine ⟨fun db => rfl, ?_⟩
  intro db rows db1 n h
  cases rows with
  | nil =>
    unfold upsert_cars at h
    simp only [List.isEmpty_nil, if_true] at h
    rw [Prod.mk.injEq] at h
    injection h.2 with h2
    exact h2.symm
  | cons r rest =>
    unfold upsert_cars at h
    rw [if_neg (by simp)] at h
    cases hall : upsertAll db (r :: rest) with
    | ok dbx =>
      rw [hall] at h
      simp only [] at h
      rw [Prod.mk.injEq] at h
      injection h.2 with h2
      exact h2.symm
    | error e =>
      rw [hall] at h
      simp only [] at h
      rw [Prod.mk.injEq] at h
      exact Except.noConfusion h.2

/-- Witness for C8: a one-row batch reports one submitted row even
though it is freshly inserted, and the row count claim evaluates. -/
theorem upsert_count_spec_wit :
    (1 : Nat) = [sampleDbRow].length :=
  upsert_count_spec.2 [] [sampleDbRow] [sampleDbRow] 1 rfl

/-! ## C2 and C6: URL filter and duplicate removal -/

/-- A nonempty list has a last element. -/
theorem getLast?_cons_exists {α : Type} (a : α) (t : List α) :
    ∃ x, (a :: t).getLast? = some x := by
  induction t generalizing a with
  | nil => exact ⟨a, List.getLast?_singleton a⟩
  | cons b t2 ih =>
    rw [List.getLast?_cons_cons]
    exact ih b

/-- Duplicate removal keeps a subsequence of the input (relative order is
preserved). -/
theorem dedupLast_sublist (l : List NormRow) : (dedupLast l).Sublist l := by
  induction l with
  | nil => exact List.Sublist.refl []
  | cons r rest ih =>
    unfold dedupLast
    by_cases h : rest.any (fun s => s.url == r.url) = true
    · rw [if_pos h]; exact ih.cons r
    · rw [if_neg h]; exact ih.cons₂ r

/-- After duplicate removal all URLs are pairwise distinct. -/
theorem dedupLast_pairwise (l : List NormRow) :
    (dedupLast l).Pairwise (fun a b => a.url ≠ b.url) := by
  induction l with
  | nil => exact List.Pairwise.nil
  | cons r rest ih =>
    unfold dedupLast
    by_cases h : rest.any (fun s => s.url == r.url) = true
    · rw [if_pos h]; exact ih
    · rw [if_neg h]
      refine List.Pairwise.cons ?_ ih
      intro s hs heq
      have hsrest : s ∈ rest := (dedupLast_sublist rest).subset hs
      exact h (List.any_eq_true.mpr ⟨s, hsrest, beq_iff_eq.mpr heq.symm⟩)

/-- Among the rows carrying one given URL, duplicate removal keeps
exactly the last one (in input order). -/
theorem dedupLast_filter (u : Option String) (l : List NormRow) :
    (dedupLast l).filter (fun r => r.url == u) =
      ((l.filter (fun r => r.url == u)).getLast?).toList := by
  induction l with
  | nil => rfl
  | cons r rest ih =>
    unfold dedupLast
    by_cases h : rest.any (fun s => s.url == r.url) = true
    · rw [if_pos h, ih, List.filter_cons]
      by_cases hu : (r.url == u) = true
      · rw [if_pos hu]
        obtain ⟨s, hs, hsu⟩ := List.any_eq_true.mp h
        have hsmem : s ∈ rest.filter (fun t => t.url == u) := by
          refine List.mem_filter.mpr ⟨hs, ?_⟩
          rw [beq_iff_eq] at hsu hu ⊢
          rw [hsu, hu]
        cases hfe : rest.filter (fun t => t.url == u) with
        | nil => rw [hfe] at hsmem; cases hsmem
        | cons a t =>
          rw [List.getLast?_cons_cons]
      · rw [if_neg hu]
    · rw [if_neg h, List.filter_cons, List.filter_cons]
      by_cases hu : (r.url == u) = true
      · rw [if_pos hu, if_pos hu, ih]
        have hempty : rest.filter (fun t => t.url == u) = [] := by
          refine List.eq_nil_iff_forall_not_mem.mpr ?_
          intro s hsf
          obtain ⟨hs, hsu⟩ := List.mem_filter.mp hsf
          refine h (List.any_eq_true.mpr ⟨s, hs, ?_⟩)
          rw [beq_iff_eq] at hsu hu ⊢
          rw [hsu, ← hu]
        rw [hempty]
        rfl
      · rw [if_neg hu, if_neg hu]
        exact ih

/-- C2.  For every table accepted by the transform, among rows sharing
one cleaned URL the output keeps exactly the last such row of the
URL-bearing rows in input order; output URLs are pairwise distinct and
the surviving rows keep their relative input order (a subsequence,
re-indexed from zero by the list positions). -/
theorem transform_dedup_spec (t : RawTable) (mid out : List NormRow) (u : String)
    (hmid : transformAllRows t = Except.ok mid)
    (hout : transform_cars t = Except.ok out) :
    out.filter (fun r => r.url == some u) =
      (((mid.filter (fun r => r.url.isSome)).filter
        (fun r => r.url == some u)).getLast?).toList ∧
    out.Pairwise (fun a b => a.url ≠ b.url) ∧
    out.Sublist (mid.filter (fun r => r.url.isSome)) := by
  unfold transform_cars at hout
  rw [hmid] at hout
  simp only [Except.map] at hout
  injection hout with hout
  subst hout
  exact ⟨dedupLast_filter (some u) _, dedupLast_pairwise _, dedupLast_sublist _⟩

/-- Witness for C2 on a table with a duplicated URL: only the later row
survives. -/
theorem transform_dedup_spec_wit :
    [dupRowC].filter (fun r => r.url == some "http://x/1") =
      ((([dupRowA, dupRowB, dupRowC].filter (fun r => r.url.isSome)).filter
        (fun r => r.url == some "http://x/1")).getLast?).toList :=
  (transform_dedup_spec dupUrlTable [dupRowA, dupRowB, dupRowC] [dupRowC]
    "http://x/1" rfl rfl).1

/-- C6.  Rows whose URL is missing after cleanup are absent from the
transform output, and every URL present among the cleaned rows is
represented in the output. -/
theorem transform_url_filter_spec (t : RawTable) (mid out : List NormRow)
    (hmid : transformAllRows t = Except.ok mid)
    (hout : transform_cars t = Except.ok out) :
    (∀ r ∈ out, r.url.isSome = true) ∧
    (∀ u : String, (∃ r ∈ mid, r.url = some u) → ∃ r ∈ out, r.url = some u) := by
  unfold transform_cars at hout
  rw [hmid] at hout
  simp only [Except.map] at hout
  injection hout with hout
  subst hout
  constructor
  · intro r hr
    have hmem : r ∈ mid.filter (fun s => s.url.isSome) :=
      (dedupLast_sublist _).subset hr
    exact (List.mem_filter.mp hmem).2
  · rintro u ⟨r, hr, hru⟩
    have hkept : r ∈ mid.filter (fun s => s.url.isSome) :=
      List.mem_filter.mpr ⟨hr, by rw [hru]; rfl⟩
    have hfil : r ∈ (mid.filter (fun s => s.url.isSome)).filter
        (fun s => s.url == some u) :=
      List.mem_filter.mpr ⟨hkept, by rw [hru]; exact beq_self_eq_true _⟩
    have hchar := dedupLast_filter (some u) (mid.filter (fun s => s.url.isSome))
    cases hfe : (mid.filter (fun s => s.url.isSome)).filter
        (fun s => s.url == some u) with
    | nil => rw [hfe] at hfil; cases hfil
    | cons a t2 =>
      obtain ⟨x, hx⟩ := getLast?_cons_exists a t2
      have hxmem2 : x ∈ (dedupLast (mid.filter (fun s => s.url.isSome))).filter
          (fun s => s.url == some u) := by
        rw [hchar, hfe, hx]
        exact List.mem_singleton.mpr rfl
      refine ⟨x, (List.mem_filter.mp hxmem2).1, ?_⟩
      exact beq_iff_eq.mp (List.mem_filter.mp hxmem2).2

/-- Witness for C6: a present URL survives, on the sample table. -/
theorem transform_url_filter_spec_wit :
    ∃ r ∈ [dupRowC], r.url = some "http://x/1" :=
  (transform_url_filter_spec dupUrlTable [dupRowA, dupRowB, dupRowC] [dupRowC]
    rfl rfl).2 "http://x/1" ⟨dupRowA, by simp, rfl⟩

/-! ## C3 and C4: the upsert semantics -/

/-- Inversion of one successful `UPSERT_SQL` execution: the row passed
the checks and the unique index, and the store was either updated at the
conflicting key or extended. -/
theorem upsertOne_ok_inv {db : Store} {r : DbRow} {db1 : Store}
    (h : upsertOne db r = Except.ok db1) :
    rowOk r = true ∧ regnrConflict db r = false ∧
    ((db.any (fun s => s.url == r.url) = true ∧
        db1 = db.map (fun s => if s.url == r.url then r else s)) ∨
      (db.any (fun s => s.url == r.url) = false ∧ db1 = db ++ [r])) := by
  unfold upsertOne at h
  by_cases h1 : rowOk r = true
  · rw [if_pos h1] at h
    by_cases h2 : regnrConflict db r = true
    · rw [if_pos h2] at h
      exact Except.noConfusion h
    · rw [if_neg h2] at h
      by_cases h3 : db.any (fun s => s.url == r.url) = true
      · rw [if_pos h3] at h
        injection h with h
        exact ⟨h1, Bool.eq_false_iff.mpr h2, Or.inl ⟨h3, h.symm⟩⟩
      · rw [if_neg h3] at h
        injection h with h
        exact ⟨h1, Bool.eq_false_iff.mpr h2, Or.inr ⟨Bool.eq_false_iff.mpr h3, h.symm⟩⟩
  · rw [if_neg h1] at h
    exact Except.noConfusion h

/-- Every row of the store after one upsert is an old row or the new
one. -/
theorem upsertOne_mem {db : Store} {r : DbRow} {db1 : Store}
    (h : upsertOne db r = Except.ok db1) :
    ∀ s ∈ db1, s ∈ db ∨ s = r := by
  obtain ⟨-, -, hc | hc⟩ := upsertOne_ok_inv h
  · rcases hc with ⟨-, rfl⟩
    intro s hs
    obtain ⟨t, ht, hts⟩ := List.mem_map.mp hs
    by_cases hu : (t.url == r.url) = true
    · right; rw [← hts, if_pos hu]
    · left; rw [← hts, if_neg hu]; exact ht
  · rcases hc with ⟨-, rfl⟩
    intro s hs
    rcases List.mem_append.mp hs with hmem | hmem
    · exact Or.inl hmem
    · exact Or.inr (List.mem_singleton.mp hmem)

/-- Replacing the row at a key leaves the key column unchanged. -/
theorem map_replace_urls (db : Store) (r : DbRow) :
    (db.map (fun s => if s.url == r.url then r else s)).map (fun s => s.url) =
      db.map (fun s => s.url) := by
  induction db with
  | nil => rfl
  | cons a t ih =>
    simp only [List.map_cons, ih]
    congr 1
    by_cases hu : (a.url == r.url) = true
    · rw [if_pos hu]
      exact (beq_iff_eq.mp hu).symm
    · rw [if_neg hu]

/-- One upsert preserves the primary-key invariant: URLs stay pairwise
distinct. -/
theorem upsertOne_nodup {db : Store} {r : DbRow} {db1 : Store}
    (hn : (db.map (fun s => s.url)).Nodup)
    (h : upsertOne db r = Except.ok db1) :
    (db1.map (fun s => s.url)).Nodup := by
  obtain ⟨-, -, hc | hc⟩ := upsertOne_ok_inv h
  · rcases hc with ⟨-, rfl⟩
    rw [map_replace_urls]
    exact hn
  · rcases hc with ⟨hany, rfl⟩
    rw [List.map_append]
    refine List.Nodup.append hn (List.nodup_singleton _) ?_
    intro x hx hx2
    simp only [List.map_cons, List.map_nil, List.mem_singleton] at hx2
    subst hx2
    obtain ⟨s, hs, hsu⟩ := List.mem_map.mp hx
    have hcontra : db.any (fun s => s.url == r.url) = true :=
      List.any_eq_true.mpr ⟨s, hs, beq_iff_eq.mpr hsu⟩
    rw [hany] at hcontra
    exact Bool.false_ne_true hcontra

/-- Filtering the updated store at the conflicting key turns every hit
into the incoming row. -/
theorem filter_map_replace (db : Store) (r : DbRow) :
    (db.map (fun s => if s.url == r.url then r else s)).filter
        (fun s => s.url == r.url) =
      (db.filter (fun s => s.url == r.url)).map (fun _ => r) := by
  induction db with
  | nil => rfl
  | cons a t ih =>
    by_cases hu : (a.url == r.url) = true
    · simp only [List.map_cons, List.filter_cons, hu, if_true, beq_self_eq_true, ih]
    · have hu2 : (a.url == r.url) = false := Bool.eq_false_iff.mpr hu
      simp only [List.map_cons, List.filter_cons, hu2, Bool.false_eq_true, if_false, ih]

/-- In a store with pairwise distinct URLs, filtering at the URL of a
member yields exactly that member. -/
theorem nodup_filter_singleton {db : Store} {u : String}
    (hn : (db.map (fun s => s.url)).Nodup)
    {s0 : DbRow} (hs0 : s0 ∈ db) (hu : s0.url = u) :
    db.filter (fun s => s.url == u) = [s0] := by
  induction db with
  | nil => cases hs0
  | cons a t ih =>
    rw [List.map_cons, List.nodup_cons] at hn
    rcases List.mem_cons.mp hs0 with heq | hmem
    · subst heq
      have hpa : (s0.url == u) = true := beq_iff_eq.mpr hu
      rw [List.filter_cons, if_pos hpa]
      have hempty : t.filter (fun s => s.url == u) = [] := by
        refine List.eq_nil_iff_forall_not_mem.mpr ?_
        intro x hx
        obtain ⟨hxt, hxu⟩ := List.mem_filter.mp hx
        refine hn.1 (List.mem_map.mpr ⟨x, hxt, ?_⟩)
        rw [beq_iff_eq] at hxu
        rw [hxu, hu]
      rw [hempty]
    · have hpa : (a.url == u) = false := by
        rw [Bool.eq_false_iff]
        intro hab
        rw [beq_iff_eq] at hab
        exact hn.1 (List.mem_map.mpr ⟨s0, hmem, by rw [hu, ← hab]⟩)
      rw [List.filter_cons, hpa]
      simp only [Bool.false_eq_true, if_false]
      exact ih hn.2 hmem

/-- After a successful upsert, the store holds exactly the incoming row
at its URL. -/
theorem upsertOne_filter_self {db : Store} {r : DbRow} {db1 : Store}
    (hn : (db.map (fun s => s.url)).Nodup)
    (h : upsertOne db r = Except.ok db1) :
    db1.filter (fun s => s.url == r.url) = [r] := by
  obtain ⟨-, -, hc | hc⟩ := upsertOne_ok_inv h
  · rcases hc with ⟨hany, rfl⟩
    rw [filter_map_replace]
    obtain ⟨s0, hs0, hs0u⟩ := List.any_eq_true.mp hany
    rw [nodup_filter_singleton hn hs0 (beq_iff_eq.mp hs0u)]
    rfl
  · rcases hc with ⟨hany, rfl⟩
    rw [List.filter_append]
    have h1 : db.filter (fun s => s.url == r.url) = [] := by
      refine List.eq_nil_iff_forall_not_mem.mpr ?_
      intro x hx
      obtain ⟨hxt, hxu⟩ := List.mem_filter.mp hx
      have hcontra : db.any (fun s => s.url == r.url) = true :=
        List.any_eq_true.mpr ⟨x, hxt, hxu⟩
      rw [hany] at hcontra
      exact Bool.false_ne_true hcontra
    rw [h1]
    simp

/-- Updating at one key does not change the rows filtered at another
key. -/
theorem filter_map_replace_ne (t : List DbRow) (r : DbRow) (u : String)
    (hne : r.url ≠ u) :
    (t.map (fun s => if s.url == r.url then r else s)).filter
        (fun s => s.url == u) =
      t.filter (fun s => s.url == u) := by
  induction t with
  | nil => rfl
  | cons a l ih =>
    by_cases ha : (a.url == r.url) = true
    · have hru : (r.url == u) = false := by
        rw [Bool.eq_false_iff]; intro hb; exact hne (beq_iff_eq.mp hb)
      have hau : (a.url == u) = false := by
        rw [Bool.eq_false_iff]; intro hb
        rw [beq_iff_eq] at ha hb
        exact hne (by rw [← ha]; exact hb)
      simp only [List.map_cons, List.filter_cons, ha, if_true, hru, hau,
        Bool.false_eq_true, if_false, ih]
    · have ha2 : (a.url == r.url) = false := Bool.eq_false_iff.mpr ha
      simp only [List.map_cons, List.filter_cons, ha2, Bool.false_eq_true, if_false, ih]

/-- Folding the remaining statements preserves the primary-key
invariant. -/
theorem upsertAll_nodup : ∀ {rows : List DbRow} {db db1 : Store},
    (db.map (fun s => s.url)).Nodup → upsertAll db rows = Except.ok db1 →
    (db1.map (fun s => s.url)).Nodup := by
  intro rows
  induction rows with
  | nil =>
    intro db db1 hn h
    unfold upsertAll at h
    injection h with h
    rw [← h]
    exact hn
  | cons r rest ih =>
    intro db db1 hn h
    unfold upsertAll at h
    cases h2 : upsertOne db r with
    | error e => rw [h2] at h; exact Except.noConfusion h
    | ok dbm =>
      rw [h2] at h
      exact ih (upsertOne_nodup hn h2) h

/-- Statements whose keys avoid a URL leave the rows at that URL
untouched. -/
theorem upsertAll_filter_frame : ∀ {rows : List DbRow} {db db1 : Store} {u : String},
    (∀ r2 ∈ rows, r2.url ≠ u) → upsertAll db rows = Except.ok db1 →
    db1.filter (fun s => s.url == u) = db.filter (fun s => s.url == u) := by
  intro rows
  induction rows with
  | nil =>
    intro db db1 u _ h
    unfold upsertAll at h
    injection h with h
    rw [← h]
  | cons r rest ih =>
    intro db db1 u hne h
    unfold upsertAll at h
    cases h2 : upsertOne db r with
    | error e => rw [h2] at h; exact Except.noConfusion h
    | ok dbm =>
      rw [h2] at h
      have hstep : dbm.filter (fun s => s.url == u) = db.filter (fun s => s.url == u) := by
        obtain ⟨-, -, hc | hc⟩ := upsertOne_ok_inv h2
        · rcases hc with ⟨-, rfl⟩
          exact filter_map_replace_ne db r u (hne r (List.mem_cons_self r rest))
        · rcases hc with ⟨-, rfl⟩
          rw [List.filter_append]
          have hr : (r.url == u) = false := by
            rw [Bool.eq_false_iff]
            intro hb
            exact (hne r (List.mem_cons_self r rest)) (beq_iff_eq.mp hb)
          simp [List.filter_cons, hr]
      exact (ih (fun x hx => hne x (List.mem_cons_of_mem r hx)) h).trans hstep

/-- If the incoming rows all avoid the URL of a stored row whose `regnr`
is free of conflicts, folding them keeps that `regnr` free of
conflicts. -/
theorem upsertAll_regnr_free : ∀ {rows : List DbRow} {db db1 : Store} {r : DbRow},
    r ∈ db → (∀ r2 ∈ rows, r2.url ≠ r.url) →
    (∀ s ∈ db, s.url ≠ r.url → ¬(r.regnr.isSome = true ∧ s.regnr = r.regnr)) →
    upsertAll db rows = Except.ok db1 →
    ∀ s ∈ db1, s.url ≠ r.url → ¬(r.regnr.isSome = true ∧ s.regnr = r.regnr) := by
  intro rows
  induction rows with
  | nil =>
    intro db db1 r _ _ hfree h
    unfold upsertAll at h
    injection h with h
    rw [← h]
    exact hfree
  | cons r2 rest ih =>
    intro db db1 r hr hu hfree h
    unfold upsertAll at h
    cases h2 : upsertOne db r2 with
    | error e => rw [h2] at h; exact Except.noConfusion h
    | ok dbm =>
      rw [h2] at h
      obtain ⟨-, hconf, -⟩ := upsertOne_ok_inv h2
      have hr2ne : r2.url ≠ r.url := hu r2 (List.mem_cons_self r2 rest)
      have hrr2 : (r.url == r2.url) = false := by
        rw [Bool.eq_false_iff]
        intro hb
        exact hr2ne (beq_iff_eq.mp hb).symm
      have hrm : r ∈ dbm := by
        obtain ⟨-, -, hc | hc⟩ := upsertOne_ok_inv h2
        · rcases hc with ⟨-, rfl⟩
          refine List.mem_map.mpr ⟨r, hr, ?_⟩
          rw [if_neg (by rw [hrr2]; exact Bool.false_ne_true)]
        · rcases hc with ⟨-, rfl⟩
          exact List.mem_append.mpr (Or.inl hr)
      have hfreem : ∀ s ∈ dbm, s.url ≠ r.url →
          ¬(r.regnr.isSome = true ∧ s.regnr = r.regnr) := by
        intro s hs hsne hcontra
        rcases upsertOne_mem h2 s hs with hsdb | heq
        · exact hfree s hsdb hsne hcontra
        · subst heq
          rcases hcontra with ⟨hsome, heqr⟩
          have hviol : regnrConflict db s = true := by
            unfold regnrConflict
            refine List.any_eq_true.mpr ⟨r, hr, ?_⟩
            rw [Bool.and_eq_true, Bool.and_eq_true]
            refine ⟨⟨?_, ?_⟩, ?_⟩
            · rw [bne_iff_ne]
              intro hb
              exact hsne hb.symm
            · rw [heqr]; exact hsome
            · rw [beq_iff_eq]; exact heqr.symm
          rw [hconf] at hviol
          exact Bool.false_ne_true hviol
      exact ih hrm (fun x hx => hu x (List.mem_cons_of_mem r2 hx)) hfreem h

/-- A list maps to itself under a function fixing all its members. -/
theorem map_id_of_forall {l : List DbRow} {f : DbRow → DbRow}
    (h : ∀ s ∈ l, f s = s) : l.map f = l := by
  induction l with
  | nil => rfl
  | cons a t ih =>
    rw [List.map_cons, h a (List.mem_cons_self a t),
      ih (fun x hx => h x (List.mem_cons_of_mem a hx))]

/-- Re-running one upsert against a store that already holds exactly the
incoming row at its URL, with no `regnr` conflict elsewhere, changes
nothing. -/
theorem upsertOne_fixpoint {db1 : Store} {r : DbRow}
    (hok : rowOk r = true)
    (hfilter : db1.filter (fun s => s.url == r.url) = [r])
    (hfree : ∀ s ∈ db1, s.url ≠ r.url → ¬(r.regnr.isSome = true ∧ s.regnr = r.regnr)) :
    upsertOne db1 r = Except.ok db1 := by
  have hrmem : r ∈ db1 := by
    have hm : r ∈ db1.filter (fun s => s.url == r.url) := by
      rw [hfilter]; exact List.mem_singleton.mpr rfl
    exact (List.mem_filter.mp hm).1
  unfold upsertOne
  rw [if_pos hok]
  have hconf : regnrConflict db1 r = false := by
    refine Bool.eq_false_iff.mpr ?_
    intro hany
    obtain ⟨s, hs, hp⟩ := List.any_eq_true.mp hany
    rw [Bool.and_eq_true, Bool.and_eq_true] at hp
    obtain ⟨⟨h1, h2⟩, h3⟩ := hp
    rw [bne_iff_ne] at h1
    rw [beq_iff_eq] at h3
    exact hfree s hs h1 ⟨h2, h3⟩
  rw [if_neg (by rw [hconf]; exact Bool.false_ne_true)]
  have hany : db1.any (fun s => s.url == r.url) = true :=
    List.any_eq_true.mpr ⟨r, hrmem, beq_self_eq_true _⟩
  rw [if_pos hany]
  congr 1
  refine map_id_of_forall ?_
  intro s hs
  by_cases hcase : (s.url == r.url) = true
  · rw [if_pos hcase]
    have hm : s ∈ db1.filter (fun t => t.url == r.url) := List.mem_filter.mpr ⟨hs, hcase⟩
    rw [hfilter] at hm
    exact (List.mem_singleton.mp hm).symm
  · rw [if_neg hcase]

/-- Re-running a whole batch with pairwise distinct URLs against the
store it produced reproduces that store. -/
theorem upsertAll_idem : ∀ (rows : List DbRow) (db db1 : Store),
    (db.map (fun s => s.url)).Nodup →
    (rows.map (fun s => s.url)).Nodup →
    upsertAll db rows = Except.ok db1 →
    upsertAll db1 rows = Except.ok db1 := by
  intro rows
  induction rows with
  | nil =>
    intro db db1 _ _ h
    unfold upsertAll at h ⊢
    rfl
  | cons r rest ih =>
    intro db db1 hdb hrows h
    unfold upsertAll at h
    cases h2 : upsertOne db r with
    | error e => rw [h2] at h; exact Except.noConfusion h
    | ok dbm =>
      rw [h2] at h
      obtain ⟨hok, hconf, -⟩ := upsertOne_ok_inv h2
      have hdbm : (dbm.map (fun s => s.url)).Nodup := upsertOne_nodup hdb h2
      rw [List.map_cons, List.nodup_cons] at hrows
      have hrurl : ∀ r2 ∈ rest, r2.url ≠ r.url := by
        intro r2 hm heq
        exact hrows.1 (List.mem_map.mpr ⟨r2, hm, heq⟩)
      have hfm : dbm.filter (fun s => s.url == r.url) = [r] := upsertOne_filter_self hdb h2
      have hf1 : db1.filter (fun s => s.url == r.url) = [r] := by
        rw [upsertAll_filter_frame hrurl h]
        exact hfm
      have hrm : r ∈ dbm := by
        have hm : r ∈ dbm.filter (fun s => s.url == r.url) := by
          rw [hfm]; exact List.mem_singleton.mpr rfl
        exact (List.mem_filter.mp hm).1
      have hfree0 : ∀ s ∈ dbm, s.url ≠ r.url →
          ¬(r.regnr.isSome = true ∧ s.regnr = r.regnr) := by
        intro s hs hne hc
        rcases upsertOne_mem h2 s hs with hsdb | heq
        · rcases hc with ⟨hsome, heqr⟩
          have hviol : regnrConflict db r = true := by
            unfold regnrConflict
            refine List.any_eq_true.mpr ⟨s, hsdb, ?_⟩
            rw [Bool.and_eq_true, Bool.and_eq_true]
            refine ⟨⟨?_, hsome⟩, ?_⟩
            · rw [bne_iff_ne]; exact hne
            · rw [beq_iff_eq]; exact heqr
          rw [hconf] at hviol
          exact Bool.false_ne_true hviol
        · exact hne (by rw [heq])
      have hfree1 := upsertAll_regnr_free hrm hrurl hfree0 h
      have hfix : upsertOne db1 r = Except.ok db1 := upsertOne_fixpoint hok hf1 hfree1
      have hih : upsertAll db1 rest = Except.ok db1 := ih dbm db1 hdbm hrows.2 h
      show upsertAll db1 (r :: rest) = Except.ok db1
      unfold upsertAll
      rw [hfix]
      exact hih

/-- C3.  Loading a batch of normalized records (URLs pairwise distinct,
the transform invariant) into a store with pairwise distinct URLs and
then re-loading the identical batch leaves the store and the reported
count unchanged: the upsert is idempotent on repeated identical
input. -/
theorem upsert_idempotent (db db1 : Store) (rows : List DbRow) (n : Nat)
    (hdb : (db.map (fun s => s.url)).Nodup)
    (hrows : (rows.map (fun s => s.url)).Nodup)
    (h : upsert_cars db rows = (db1, Except.ok n)) :
    upsert_cars db1 rows = (db1, Except.ok n) := by
  cases rows with
  | nil =>
    unfold upsert_cars at h ⊢
    simp only [List.isEmpty_nil, if_true] at h ⊢
    rw [Prod.mk.injEq] at h
    rw [← h.1, ← h.2]
  | cons r rest =>
    unfold upsert_cars at h ⊢
    rw [if_neg (by simp)] at h ⊢
    cases hall : upsertAll db (r :: rest) with
    | error e =>
      rw [hall] at h
      simp only [] at h
      rw [Prod.mk.injEq] at h
      exact Except.noConfusion h.2
    | ok dbx =>
      rw [hall] at h
      simp only [] at h
      rw [Prod.mk.injEq] at h
      obtain ⟨h1, h2⟩ := h
      subst h1
      rw [upsertAll_idem (r :: rest) db dbx hdb hrows hall, ← h2]

/-- Witness for C3: re-loading a freshly inserted record changes
nothing. -/
theorem upsert_idempotent_wit :
    upsert_cars [sampleDbRow] [sampleDbRow] = ([sampleDbRow], Except.ok 1) :=
  upsert_idempotent [] [sampleDbRow] [sampleDbRow] 1 (by simp) (by simp) rfl

/-- C4.  When the incoming row's URL already exists in a store with
pairwise distinct URLs, a successful upsert replaces the stored row in
full with the incoming row — every non-key field, nulls included — and
the row count is unchanged. -/
theorem upsert_conflict_full_replace (db db1 : Store) (r s : DbRow)
    (hdb : (db.map (fun t => t.url)).Nodup)
    (hs : s ∈ db) (hsu : s.url = r.url)
    (h : upsertOne db r = Except.ok db1) :
    db1.filter (fun t => t.url == r.url) = [r] ∧ db1.length = db.length := by
  refine ⟨upsertOne_filter_self hdb h, ?_⟩
  obtain ⟨-, -, hc | hc⟩ := upsertOne_ok_inv h
  · rcases hc with ⟨-, rfl⟩
    simp
  · rcases hc with ⟨hany, -⟩
    have hcontra : db.any (fun t => t.url == r.url) = true :=
      List.any_eq_true.mpr ⟨s, hs, beq_iff_eq.mpr hsu⟩
    rw [hany] at hcontra
    exact absurd hcontra Bool.false_ne_true

/-- Witness for C4: an incoming row whose nullable fields are all null
fully overwrites a stored row whose fields were all populated. -/
theorem upsert_conflict_full_replace_wit :
    [incomingNullRow].filter (fun t => t.url == incomingNullRow.url) = [incomingNullRow] ∧
    [incomingNullRow].length = [storedFullRow].length :=
  upsert_conflict_full_replace [storedFullRow] [incomingNullRow] incomingNullRow
    storedFullRow (by simp) (by simp) rfl rfl

end ETLCars
